import Mathlib

/-!
Verification of the implicit-function grey-box model implemented in
pyomo/contrib/pynumero/interfaces/external_pyomo_model.py.

The model exposes residual equations F(x) = f(x, y(x)) where y(x) solves
g(x, y) = 0, together with first and second derivatives obtained through
the implicit function theorem.  The numerical kernels of the source file
are embedded below over exact rationals:

* `denseToFullSparse` embeds `_dense_to_full_sparse` (dense block to a
  coordinate-format sparse matrix with an explicit entry everywhere);
* `spluSolve` / `spluSolveVec` model `scipy.sparse.linalg.splu(A).solve`,
  the linear solve performed from an LU factorization, as the exact
  determinant-adjugate solve (which agrees with the factorization solve at
  every nonsingular `A`);
* `evaluateJacobianEqualityConstraints`, `evaluateJacobianExternalVariables`,
  `evaluateHessianExternalVariables`, `evaluateHessiansOfResiduals` and
  `evaluateHessianEqualityConstraints` embed the corresponding methods of
  `ExternalPyomoModel` as functions of the extracted derivative blocks
  `jfx, jfy, jgx, jgy` and the per-constraint Hessian blocks: the methods
  obtain these blocks from the PyomoNLP collaborator and all remaining work
  is the arithmetic embedded here;
* a small state-transition model embeds `__init__`, `set_input_values` and
  `evaluate_equality_constraints` to settle the construction and
  error-handling claims.
-/

namespace ExternalPyomoModelSpec

open scoped Matrix

/-- One explicit entry of a coordinate-format (COO) sparse matrix:
a row index, a column index and the stored value (possibly zero). -/
structure CooEntry where
  row : ℕ
  col : ℕ
  val : ℚ
  deriving DecidableEq

/-- A coordinate-format sparse matrix as produced by
`scipy.sparse.coo_matrix((data, (row, col)), shape=(nrow, ncol))`:
a shape together with the list of explicit entries, in construction order. -/
structure CooMatrix where
  nrow : ℕ
  ncol : ℕ
  entries : List CooEntry
  deriving DecidableEq

/-- Embedding of `_dense_to_full_sparse` (external_pyomo_model.py, lines
31-59): iterate `itertools.product(range(nrow), range(ncol))` in row-major
order, appending the coordinate pair and the dense value for every
position, including exact zeros, and build the COO matrix from the three
parallel lists. -/
def denseToFullSparse {m n : ℕ} (M : Matrix (Fin m) (Fin n) ℚ) : CooMatrix where
  nrow := m
  ncol := n
  entries := (List.finRange m).flatMap fun i => (List.finRange n).map fun j =>
    { row := i.val, col := j.val, val := M i j }

lemma mem_denseToFullSparse {m n : ℕ} (M : Matrix (Fin m) (Fin n) ℚ)
    (i : Fin m) (j : Fin n) :
    (⟨i.val, j.val, M i j⟩ : CooEntry) ∈ (denseToFullSparse M).entries := by
  simp only [denseToFullSparse, List.mem_flatMap, List.mem_map]
  exact ⟨i, List.mem_finRange i, j, List.mem_finRange j, rfl⟩

lemma of_mem_denseToFullSparse {m n : ℕ} (M : Matrix (Fin m) (Fin n) ℚ)
    (e : CooEntry) (he : e ∈ (denseToFullSparse M).entries) :
    ∃ (i : Fin m) (j : Fin n), e = ⟨i.val, j.val, M i j⟩ := by
  simp only [denseToFullSparse, List.mem_flatMap, List.mem_map] at he
  obtain ⟨i, -, j, -, rfl⟩ := he
  exact ⟨i, j, rfl⟩

/-- Claim C4: for every dense input matrix of any shape, the sparse-fill
conversion returns a coordinate-format sparse matrix whose set of explicit
coordinates is exactly the full Cartesian product of row and column index
ranges, with the stored value at `(i, j)` equal to the dense entry
`(i, j)`, regardless of how many entries are exactly zero. -/
theorem dense_to_full_sparse_full_pattern {m n : ℕ} (M : Matrix (Fin m) (Fin n) ℚ) :
    (denseToFullSparse M).nrow = m ∧ (denseToFullSparse M).ncol = n ∧
    (∀ (i : Fin m) (j : Fin n),
      (⟨i.val, j.val, M i j⟩ : CooEntry) ∈ (denseToFullSparse M).entries) ∧
    (∀ e ∈ (denseToFullSparse M).entries,
      ∃ (i : Fin m) (j : Fin n), e = ⟨i.val, j.val, M i j⟩) :=
  ⟨rfl, rfl, mem_denseToFullSparse M, of_mem_denseToFullSparse M⟩

/-- Witness for C4 at a concrete 1 by 2 matrix with one zero entry: the
coordinate `(0, 1)` is explicitly stored and carries the dense value `0`. -/
theorem dense_to_full_sparse_full_pattern_witness :
    (⟨0, 1, (0 : ℚ)⟩ : CooEntry) ∈ (denseToFullSparse !![(5 : ℚ), 0]).entries := by
  simpa using (dense_to_full_sparse_full_pattern !![(5 : ℚ), 0]).2.2.1 0 1

/-- Model of `scipy.sparse.linalg.splu(A).solve(B)` for a square matrix `A`
and right-hand-side matrix `B`: the solve performed against the LU factors
of `A`, embedded as the exact determinant-adjugate solve over `ℚ`.  For
every nonsingular `A` this is the unique `X` with `A * X = B`, which is
what the factorization-based triangular solves compute. -/
def spluSolve {n m : ℕ} (A : Matrix (Fin n) (Fin n) ℚ)
    (B : Matrix (Fin n) (Fin m) ℚ) : Matrix (Fin n) (Fin m) ℚ :=
  A.det⁻¹ • (A.adjugate * B)

/-- Model of `splu(A).solve(b)` for a single right-hand-side vector `b`,
as used by the column-wise backsolves in the Hessian computation. -/
def spluSolveVec {n : ℕ} (A : Matrix (Fin n) (Fin n) ℚ) (b : Fin n → ℚ) :
    Fin n → ℚ :=
  A.det⁻¹ • (A.adjugate.mulVec b)

lemma spluSolve_eq_inv_mul {n m : ℕ} (A : Matrix (Fin n) (Fin n) ℚ)
    (B : Matrix (Fin n) (Fin m) ℚ) : spluSolve A B = A⁻¹ * B := by
  rw [spluSolve, Matrix.inv_def, Ring.inverse_eq_inv, Matrix.smul_mul]

lemma spluSolveVec_eq_inv_mulVec {n : ℕ} (A : Matrix (Fin n) (Fin n) ℚ)
    (b : Fin n → ℚ) : spluSolveVec A b = Matrix.mulVec A⁻¹ b := by
  rw [spluSolveVec, Matrix.inv_def, Ring.inverse_eq_inv, Matrix.smul_mulVec_assoc]

/-- Embedding of `evaluate_jacobian_external_variables` (lines 222-231):
`dydx = -1 * splu(jgy.tocsc()).solve(jgx.toarray())`, the first-order
sensitivity `dy/dx` of the external variables, as a function of the
extracted Jacobian blocks `jgx = ∂g/∂x` and `jgy = ∂g/∂y`. -/
def evaluateJacobianExternalVariables {nx ny : ℕ}
    (jgx : Matrix (Fin ny) (Fin nx) ℚ) (jgy : Matrix (Fin ny) (Fin ny) ℚ) :
    Matrix (Fin ny) (Fin nx) ℚ :=
  (-1 : ℚ) • spluSolve jgy jgx

/-- Embedding of `evaluate_jacobian_equality_constraints` (lines 195-220):
compute `dydx = -1 * splu(jgy).solve(jgx)`, then
`dfdx = jfx + jfy.dot(dydx)`, and return `_dense_to_full_sparse(dfdx)`. -/
def evaluateJacobianEqualityConstraints {nx ny nf : ℕ}
    (jfx : Matrix (Fin nf) (Fin nx) ℚ) (jfy : Matrix (Fin nf) (Fin ny) ℚ)
    (jgx : Matrix (Fin ny) (Fin nx) ℚ) (jgy : Matrix (Fin ny) (Fin ny) ℚ) :
    CooMatrix :=
  let dydx := (-1 : ℚ) • spluSolve jgy jgx
  let dfdx := jfx + jfy * dydx
  denseToFullSparse dfdx

lemma jacobianExternalVariables_eq_spec {nx ny : ℕ}
    (jgx : Matrix (Fin ny) (Fin nx) ℚ) (jgy : Matrix (Fin ny) (Fin ny) ℚ) :
    evaluateJacobianExternalVariables jgx jgy = -(jgy⁻¹ * jgx) := by
  rw [evaluateJacobianExternalVariables, spluSolve_eq_inv_mul, neg_one_smul]

lemma jgy_mul_dydx {nx ny : ℕ}
    (jgx : Matrix (Fin ny) (Fin nx) ℚ) (jgy : Matrix (Fin ny) (Fin ny) ℚ)
    (hreg : IsUnit jgy.det) :
    jgy * evaluateJacobianExternalVariables jgx jgy = -jgx := by
  rw [jacobianExternalVariables_eq_spec, Matrix.mul_neg, ← Matrix.mul_assoc,
    Matrix.mul_nonsing_inv jgy hreg, Matrix.one_mul]

/-- Claim C1: in the Ready state (the factorization of `∂g/∂y` exists,
i.e. `∂g/∂y` is nonsingular), `evaluate_jacobian_equality_constraints`
returns the matrix `dF/dx = ∂f/∂x + (∂f/∂y)·(dy/dx)` with
`dy/dx = -(∂g/∂y)⁻¹·(∂g/∂x)`, where the computed `dy/dx` solves the
linear system `(∂g/∂y)·(dy/dx) = -∂g/∂x` of the LU factorization rather
than being formed from an explicit inverse, and the result is a sparse
matrix of shape `|f| × |x|` with every coordinate explicit. -/
theorem evaluate_jacobian_equality_constraints_spec {nx ny nf : ℕ}
    (jfx : Matrix (Fin nf) (Fin nx) ℚ) (jfy : Matrix (Fin nf) (Fin ny) ℚ)
    (jgx : Matrix (Fin ny) (Fin nx) ℚ) (jgy : Matrix (Fin ny) (Fin ny) ℚ)
    (hreg : IsUnit jgy.det) :
    (evaluateJacobianEqualityConstraints jfx jfy jgx jgy).nrow = nf ∧
    (evaluateJacobianEqualityConstraints jfx jfy jgx jgy).ncol = nx ∧
    jgy * evaluateJacobianExternalVariables jgx jgy = -jgx ∧
    (∀ (i : Fin nf) (j : Fin nx),
      (⟨i.val, j.val, (jfx + jfy * (-(jgy⁻¹ * jgx))) i j⟩ : CooEntry) ∈
        (evaluateJacobianEqualityConstraints jfx jfy jgx jgy).entries) ∧
    (∀ e ∈ (evaluateJacobianEqualityConstraints jfx jfy jgx jgy).entries,
      ∃ (i : Fin nf) (j : Fin nx),
        e = ⟨i.val, j.val, (jfx + jfy * (-(jgy⁻¹ * jgx))) i j⟩) := by
  have hd : (-1 : ℚ) • spluSolve jgy jgx = -(jgy⁻¹ * jgx) := by
    rw [spluSolve_eq_inv_mul, neg_one_smul]
  have hkey : evaluateJacobianEqualityConstraints jfx jfy jgx jgy =
      denseToFullSparse (jfx + jfy * (-(jgy⁻¹ * jgx))) := by
    rw [evaluateJacobianEqualityConstraints, hd]
  refine ⟨by rw [hkey]; rfl, by rw [hkey]; rfl, jgy_mul_dydx jgx jgy hreg, ?_, ?_⟩
  · intro i j
    rw [hkey]
    exact mem_denseToFullSparse _ i j
  · intro e he
    rw [hkey] at he
    exact of_mem_denseToFullSparse _ e he

/-- Witness for C1 at concrete 1-dimensional blocks `∂f/∂x = [1]`,
`∂f/∂y = [3]`, `∂g/∂x = [4]`, `∂g/∂y = [2]` (nonsingular). -/
theorem evaluate_jacobian_equality_constraints_spec_witness :
    (evaluateJacobianEqualityConstraints !![(1 : ℚ)] !![(3 : ℚ)] !![(4 : ℚ)]
        !![(2 : ℚ)]).nrow = 1 ∧
    !![(2 : ℚ)] * evaluateJacobianExternalVariables !![(4 : ℚ)] !![(2 : ℚ)] =
      -(!![(4 : ℚ)]) := by
  have hreg : IsUnit (!![(2 : ℚ)]).det := by
    rw [Matrix.det_fin_one]
    exact isUnit_iff_ne_zero.mpr (by norm_num)
  obtain ⟨h1, -, h3, -, -⟩ :=
    evaluate_jacobian_equality_constraints_spec !![(1 : ℚ)] !![(3 : ℚ)]
      !![(4 : ℚ)] !![(2 : ℚ)] hreg
  exact ⟨h1, h3⟩

/-- Embedding of `evaluate_hessian_external_variables` (lines 233-280).
The method factorizes `jgy` once, computes `dydx = -1 * fact.solve(jgx)`,
forms for each external constraint `k` the matrix
`sum_[k] = hgxx[k] + (hgxy[k]·dydx + (hgxy[k]·dydx)ᵀ) + dydxᵀ·hgyy[k]·dydx`,
extracts for each `(i, j)` the length-`ny` vector `(sum_[k][i,j])_k`,
solves each vector against the factorization, and assembles
`d2ydx2[k][a,b] = -solved_vectors[a][b][k]`. -/
def evaluateHessianExternalVariables {nx ny : ℕ}
    (jgx : Matrix (Fin ny) (Fin nx) ℚ) (jgy : Matrix (Fin ny) (Fin ny) ℚ)
    (hgxx : Fin ny → Matrix (Fin nx) (Fin nx) ℚ)
    (hgxy : Fin ny → Matrix (Fin nx) (Fin ny) ℚ)
    (hgyy : Fin ny → Matrix (Fin ny) (Fin ny) ℚ) :
    Fin ny → Matrix (Fin nx) (Fin nx) ℚ :=
  let dydx := (-1 : ℚ) • spluSolve jgy jgx
  let term1 := hgxx
  let term2 : Fin ny → Matrix (Fin nx) (Fin nx) ℚ :=
    fun k => hgxy k * dydx + (hgxy k * dydx)ᵀ
  let term3 : Fin ny → Matrix (Fin nx) (Fin nx) ℚ :=
    fun k => dydxᵀ * hgyy k * dydx
  let sums : Fin ny → Matrix (Fin nx) (Fin nx) ℚ :=
    fun k => term1 k + term2 k + term3 k
  let vectors : Fin nx → Fin nx → Fin ny → ℚ :=
    fun i j k => sums k i j
  let solvedVectors : Fin nx → Fin nx → Fin ny → ℚ :=
    fun i j => spluSolveVec jgy (vectors i j)
  fun k => Matrix.of fun a b => -(solvedVectors a b k)

/-- Embedding of `evaluate_hessians_of_residuals` (lines 282-332).
The method extracts `jfy`, reuses `evaluate_jacobian_external_variables`
and `evaluate_hessian_external_variables`, forms the three direct terms
from the Hessian blocks of each residual constraint, extracts the
`nx * nx` vectors of the `d2ydx2` tensor, multiplies each by `jfy`, and
adds the resulting fourth term.  (The method also extracts `jfx`, which
its body never uses.) -/
def evaluateHessiansOfResiduals {nx ny nf : ℕ}
    (jfy : Matrix (Fin nf) (Fin ny) ℚ)
    (jgx : Matrix (Fin ny) (Fin nx) ℚ) (jgy : Matrix (Fin ny) (Fin ny) ℚ)
    (hfxx : Fin nf → Matrix (Fin nx) (Fin nx) ℚ)
    (hfxy : Fin nf → Matrix (Fin nx) (Fin ny) ℚ)
    (hfyy : Fin nf → Matrix (Fin ny) (Fin ny) ℚ)
    (hgxx : Fin ny → Matrix (Fin nx) (Fin nx) ℚ)
    (hgxy : Fin ny → Matrix (Fin nx) (Fin ny) ℚ)
    (hgyy : Fin ny → Matrix (Fin ny) (Fin ny) ℚ) :
    Fin nf → Matrix (Fin nx) (Fin nx) ℚ :=
  let dydx := evaluateJacobianExternalVariables jgx jgy
  let d2ydx2 := evaluateHessianExternalVariables jgx jgy hgxx hgxy hgyy
  let term1 := hfxx
  let term2 : Fin nf → Matrix (Fin nx) (Fin nx) ℚ :=
    fun i => hfxy i * dydx + (hfxy i * dydx)ᵀ
  let term3 : Fin nf → Matrix (Fin nx) (Fin nx) ℚ :=
    fun i => dydxᵀ * hfyy i * dydx
  let vectors : Fin nx → Fin nx → Fin ny → ℚ :=
    fun a b k => d2ydx2 k a b
  let productVectors : Fin nx → Fin nx → Fin nf → ℚ :=
    fun a b => jfy.mulVec (vectors a b)
  let term4 : Fin nf → Matrix (Fin nx) (Fin nx) ℚ :=
    fun i => Matrix.of fun a b => productVectors a b i
  fun i => term1 i + term2 i + term3 i + term4 i

lemma hessianExternalVariables_eq_spec {nx ny : ℕ}
    (jgx : Matrix (Fin ny) (Fin nx) ℚ) (jgy : Matrix (Fin ny) (Fin ny) ℚ)
    (hgxx : Fin ny → Matrix (Fin nx) (Fin nx) ℚ)
    (hgxy : Fin ny → Matrix (Fin nx) (Fin ny) ℚ)
    (hgyy : Fin ny → Matrix (Fin ny) (Fin ny) ℚ) :
    evaluateHessianExternalVariables jgx jgy hgxx hgxy hgyy = fun k =>
      Matrix.of fun a b =>
        -(Matrix.mulVec jgy⁻¹ (fun k2 =>
            (hgxx k2 +
              (hgxy k2 * (-(jgy⁻¹ * jgx)) + (hgxy k2 * (-(jgy⁻¹ * jgx)))ᵀ) +
              (-(jgy⁻¹ * jgx))ᵀ * hgyy k2 * (-(jgy⁻¹ * jgx))) a b) k) := by
  funext k
  ext a b
  simp only [evaluateHessianExternalVariables, spluSolveVec_eq_inv_mulVec,
    spluSolve_eq_inv_mul, neg_one_smul, Matrix.of_apply]

lemma hessiansOfResiduals_eq_spec {nx ny nf : ℕ}
    (jfy : Matrix (Fin nf) (Fin ny) ℚ)
    (jgx : Matrix (Fin ny) (Fin nx) ℚ) (jgy : Matrix (Fin ny) (Fin ny) ℚ)
    (hfxx : Fin nf → Matrix (Fin nx) (Fin nx) ℚ)
    (hfxy : Fin nf → Matrix (Fin nx) (Fin ny) ℚ)
    (hfyy : Fin nf → Matrix (Fin ny) (Fin ny) ℚ)
    (hgxx : Fin ny → Matrix (Fin nx) (Fin nx) ℚ)
    (hgxy : Fin ny → Matrix (Fin nx) (Fin ny) ℚ)
    (hgyy : Fin ny → Matrix (Fin ny) (Fin ny) ℚ) :
    evaluateHessiansOfResiduals jfy jgx jgy hfxx hfxy hfyy hgxx hgxy hgyy =
      fun i =>
        hfxx i +
          (hfxy i * (-(jgy⁻¹ * jgx)) + (hfxy i * (-(jgy⁻¹ * jgx)))ᵀ) +
          (-(jgy⁻¹ * jgx))ᵀ * hfyy i * (-(jgy⁻¹ * jgx)) +
          Matrix.of (fun a b => ∑ k : Fin ny, jfy i k *
            evaluateHessianExternalVariables jgx jgy hgxx hgxy hgyy k a b) := by
  funext i
  ext a b
  simp only [evaluateHessiansOfResiduals, jacobianExternalVariables_eq_spec,
    Matrix.of_apply, Matrix.add_apply, Matrix.mulVec, Matrix.dotProduct]

/-- Claim C2: in the Ready state (`∂g/∂y` nonsingular), each residual
Hessian computed by `evaluate_hessians_of_residuals` equals the four-term
decomposition `H_xx + (H_xy·J + Jᵀ·H_xyᵀ) + Jᵀ·H_yy·J` plus the
`(∂f_i/∂y)`-weighted `d²y/dx²` term, with `J = dy/dx = -(∂g/∂y)⁻¹·(∂g/∂x)`
solving `(∂g/∂y)·J = -∂g/∂x`; and the `d²y/dx²` tensor returned by
`evaluate_hessian_external_variables` equals the same decomposition applied
to `g` (without the fourth term), with each right-hand-side column solved
against the factorization of `∂g/∂y` and negated. -/
theorem evaluate_hessians_of_residuals_spec {nx ny nf : ℕ}
    (jfy : Matrix (Fin nf) (Fin ny) ℚ)
    (jgx : Matrix (Fin ny) (Fin nx) ℚ) (jgy : Matrix (Fin ny) (Fin ny) ℚ)
    (hfxx : Fin nf → Matrix (Fin nx) (Fin nx) ℚ)
    (hfxy : Fin nf → Matrix (Fin nx) (Fin ny) ℚ)
    (hfyy : Fin nf → Matrix (Fin ny) (Fin ny) ℚ)
    (hgxx : Fin ny → Matrix (Fin nx) (Fin nx) ℚ)
    (hgxy : Fin ny → Matrix (Fin nx) (Fin ny) ℚ)
    (hgyy : Fin ny → Matrix (Fin ny) (Fin ny) ℚ)
    (hreg : IsUnit jgy.det) :
    jgy * (-(jgy⁻¹ * jgx)) = -jgx ∧
    (∀ k : Fin ny,
      evaluateHessianExternalVariables jgx jgy hgxx hgxy hgyy k =
        Matrix.of fun a b =>
          -(Matrix.mulVec jgy⁻¹ (fun k2 =>
              (hgxx k2 +
                (hgxy k2 * (-(jgy⁻¹ * jgx)) +
                  (-(jgy⁻¹ * jgx))ᵀ * (hgxy k2)ᵀ) +
                (-(jgy⁻¹ * jgx))ᵀ * hgyy k2 * (-(jgy⁻¹ * jgx))) a b) k)) ∧
    (∀ i : Fin nf,
      evaluateHessiansOfResiduals jfy jgx jgy hfxx hfxy hfyy hgxx hgxy hgyy i =
        hfxx i +
          (hfxy i * (-(jgy⁻¹ * jgx)) +
            (-(jgy⁻¹ * jgx))ᵀ * (hfxy i)ᵀ) +
          (-(jgy⁻¹ * jgx))ᵀ * hfyy i * (-(jgy⁻¹ * jgx)) +
          Matrix.of (fun a b => ∑ k : Fin ny, jfy i k *
            evaluateHessianExternalVariables jgx jgy hgxx hgxy hgyy k a b)) := by
  refine ⟨?_, ?_, ?_⟩
  · rw [Matrix.mul_neg, ← Matrix.mul_assoc, Matrix.mul_nonsing_inv jgy hreg,
      Matrix.one_mul]
  · intro k
    rw [hessianExternalVariables_eq_spec jgx jgy hgxx hgxy hgyy]
    simp only [Matrix.transpose_mul]
  · intro i
    rw [hessiansOfResiduals_eq_spec jfy jgx jgy hfxx hfxy hfyy hgxx hgxy hgyy]
    simp only [Matrix.transpose_mul]

/-- Witness for C2 at concrete 1-dimensional blocks with nonsingular
`∂g/∂y = [2]`: the residual Hessian decomposition at index `0`. -/
theorem evaluate_hessians_of_residuals_spec_witness :
    evaluateHessiansOfResiduals !![(3 : ℚ)] !![(4 : ℚ)] !![(2 : ℚ)]
        (fun _ => !![(5 : ℚ)]) (fun _ => !![(6 : ℚ)]) (fun _ => !![(7 : ℚ)])
        (fun _ => !![(8 : ℚ)]) (fun _ => !![(9 : ℚ)]) (fun _ => !![(10 : ℚ)]) 0 =
      !![(5 : ℚ)] +
        (!![(6 : ℚ)] * (-((!![(2 : ℚ)])⁻¹ * !![(4 : ℚ)])) +
          (-((!![(2 : ℚ)])⁻¹ * !![(4 : ℚ)]))ᵀ * (!![(6 : ℚ)])ᵀ) +
        (-((!![(2 : ℚ)])⁻¹ * !![(4 : ℚ)]))ᵀ * !![(7 : ℚ)] *
          (-((!![(2 : ℚ)])⁻¹ * !![(4 : ℚ)])) +
        Matrix.of (fun a b => ∑ k : Fin 1, !![(3 : ℚ)] 0 k *
          evaluateHessianExternalVariables !![(4 : ℚ)] !![(2 : ℚ)]
            (fun _ => !![(8 : ℚ)]) (fun _ => !![(9 : ℚ)])
            (fun _ => !![(10 : ℚ)]) k a b) := by
  have hreg : IsUnit (!![(2 : ℚ)]).det := by
    rw [Matrix.det_fin_one]
    exact isUnit_iff_ne_zero.mpr (by norm_num)
  exact (evaluate_hessians_of_residuals_spec !![(3 : ℚ)] !![(4 : ℚ)] !![(2 : ℚ)]
    (fun _ => !![(5 : ℚ)]) (fun _ => !![(6 : ℚ)]) (fun _ => !![(7 : ℚ)])
    (fun _ => !![(8 : ℚ)]) (fun _ => !![(9 : ℚ)]) (fun _ => !![(10 : ℚ)])
    hreg).2.2 0

/-- The spec's first-order sensitivity (spec 4.1, following its words):
`dy/dx = -(∂g/∂y)⁻¹ · (∂g/∂x)`, written with the explicit matrix
inverse.  This is the comparison point for the solve-based computation in
the code; it is not how the code forms `dy/dx`. -/
noncomputable def specDydx {nx ny : ℕ}
    (jgx : Matrix (Fin ny) (Fin nx) ℚ) (jgy : Matrix (Fin ny) (Fin ny) ℚ) :
    Matrix (Fin ny) (Fin nx) ℚ :=
  -(jgy⁻¹ * jgx)

/-- The spec's `d²y/dx²` tensor (spec 4.3, following its words): the
decomposition `H_xx + (H_xy·J + Jᵀ·H_xyᵀ) + Jᵀ·H_yy·J` applied to `g`,
with each right-hand-side column solved against `∂g/∂y` and negated. -/
noncomputable def specD2ydx2 {nx ny : ℕ}
    (jgx : Matrix (Fin ny) (Fin nx) ℚ) (jgy : Matrix (Fin ny) (Fin ny) ℚ)
    (hgxx : Fin ny → Matrix (Fin nx) (Fin nx) ℚ)
    (hgxy : Fin ny → Matrix (Fin nx) (Fin ny) ℚ)
    (hgyy : Fin ny → Matrix (Fin ny) (Fin ny) ℚ) :
    Fin ny → Matrix (Fin nx) (Fin nx) ℚ :=
  fun k => Matrix.of fun a b =>
    -(Matrix.mulVec jgy⁻¹ (fun k2 =>
        (hgxx k2 +
          (hgxy k2 * specDydx jgx jgy + (specDydx jgx jgy)ᵀ * (hgxy k2)ᵀ) +
          (specDydx jgx jgy)ᵀ * hgyy k2 * specDydx jgx jgy) a b) k)

/-- The spec's second derivative of residual `i` (spec 4.3, following its
words): `d²Fᵢ/dx² = H_xx + (H_xy·J + Jᵀ·H_xyᵀ) + Jᵀ·H_yy·J` plus the
`(∂f_i/∂y)`-weighted `d²y/dx²` term. -/
noncomputable def specResidualHessian {nx ny nf : ℕ}
    (jfy : Matrix (Fin nf) (Fin ny) ℚ)
    (jgx : Matrix (Fin ny) (Fin nx) ℚ) (jgy : Matrix (Fin ny) (Fin ny) ℚ)
    (hfxx : Fin nf → Matrix (Fin nx) (Fin nx) ℚ)
    (hfxy : Fin nf → Matrix (Fin nx) (Fin ny) ℚ)
    (hfyy : Fin nf → Matrix (Fin ny) (Fin ny) ℚ)
    (hgxx : Fin ny → Matrix (Fin nx) (Fin nx) ℚ)
    (hgxy : Fin ny → Matrix (Fin nx) (Fin ny) ℚ)
    (hgyy : Fin ny → Matrix (Fin ny) (Fin ny) ℚ) :
    Fin nf → Matrix (Fin nx) (Fin nx) ℚ :=
  fun i =>
    hfxx i +
      (hfxy i * specDydx jgx jgy + (specDydx jgx jgy)ᵀ * (hfxy i)ᵀ) +
      (specDydx jgx jgy)ᵀ * hfyy i * specDydx jgx jgy +
      Matrix.of (fun a b => ∑ k : Fin ny, jfy i k *
        specD2ydx2 jgx jgy hgxx hgxy hgyy k a b)

lemma hessiansOfResiduals_eq_specResidualHessian {nx ny nf : ℕ}
    (jfy : Matrix (Fin nf) (Fin ny) ℚ)
    (jgx : Matrix (Fin ny) (Fin nx) ℚ) (jgy : Matrix (Fin ny) (Fin ny) ℚ)
    (hfxx : Fin nf → Matrix (Fin nx) (Fin nx) ℚ)
    (hfxy : Fin nf → Matrix (Fin nx) (Fin ny) ℚ)
    (hfyy : Fin nf → Matrix (Fin ny) (Fin ny) ℚ)
    (hgxx : Fin ny → Matrix (Fin nx) (Fin nx) ℚ)
    (hgxy : Fin ny → Matrix (Fin nx) (Fin ny) ℚ)
    (hgyy : Fin ny → Matrix (Fin ny) (Fin ny) ℚ) :
    evaluateHessiansOfResiduals jfy jgx jgy hfxx hfxy hfyy hgxx hgxy hgyy =
      specResidualHessian jfy jgx jgy hfxx hfxy hfyy hgxx hgxy hgyy := by
  rw [hessiansOfResiduals_eq_spec]
  funext i
  simp only [specResidualHessian, specD2ydx2, specDydx,
    hessianExternalVariables_eq_spec, Matrix.transpose_mul, Matrix.of_apply]

/-- Embedding of `scipy.sparse.tril` with the default diagonal `k = 0`, as
applied to a COO matrix: keep exactly the entries on or below the main
diagonal (`row ≥ col`), preserving the shape. -/
def trilCoo (c : CooMatrix) : CooMatrix :=
  { c with entries := c.entries.filter fun e => decide (e.col ≤ e.row) }

/-- Embedding of `evaluate_hessian_equality_constraints` (lines 334-348):
`sum(mult * matrix for mult, matrix in zip(multipliers, d2fdx2))` over the
residual Hessians from `evaluate_hessians_of_residuals`, converted by
`_dense_to_full_sparse` and passed through `sps.tril`. -/
def evaluateHessianEqualityConstraints {nx ny nf : ℕ}
    (jfy : Matrix (Fin nf) (Fin ny) ℚ)
    (jgx : Matrix (Fin ny) (Fin nx) ℚ) (jgy : Matrix (Fin ny) (Fin ny) ℚ)
    (hfxx : Fin nf → Matrix (Fin nx) (Fin nx) ℚ)
    (hfxy : Fin nf → Matrix (Fin nx) (Fin ny) ℚ)
    (hfyy : Fin nf → Matrix (Fin ny) (Fin ny) ℚ)
    (hgxx : Fin ny → Matrix (Fin nx) (Fin nx) ℚ)
    (hgxy : Fin ny → Matrix (Fin nx) (Fin ny) ℚ)
    (hgyy : Fin ny → Matrix (Fin ny) (Fin ny) ℚ)
    (multipliers : Fin nf → ℚ) : CooMatrix :=
  let d2fdx2 := evaluateHessiansOfResiduals jfy jgx jgy hfxx hfxy hfyy
    hgxx hgxy hgyy
  let sums : Matrix (Fin nx) (Fin nx) ℚ := ∑ i : Fin nf, multipliers i • d2fdx2 i
  trilCoo (denseToFullSparse sums)

lemma mem_trilCoo_denseToFullSparse {nn : ℕ} (M : Matrix (Fin nn) (Fin nn) ℚ)
    (a b : Fin nn) (h : b.val ≤ a.val) :
    (⟨a.val, b.val, M a b⟩ : CooEntry) ∈
      (trilCoo (denseToFullSparse M)).entries := by
  simp only [trilCoo, List.mem_filter, decide_eq_true_eq]
  exact ⟨mem_denseToFullSparse M a b, h⟩

lemma of_mem_trilCoo_denseToFullSparse {nn : ℕ} (M : Matrix (Fin nn) (Fin nn) ℚ)
    (e : CooEntry) (he : e ∈ (trilCoo (denseToFullSparse M)).entries) :
    e.col ≤ e.row ∧ ∃ (a b : Fin nn), e = ⟨a.val, b.val, M a b⟩ := by
  simp only [trilCoo, List.mem_filter, decide_eq_true_eq] at he
  exact ⟨he.2, of_mem_denseToFullSparse M e he.1⟩

/-- Claim C3: in the Ready state with multipliers set,
`evaluate_hessian_equality_constraints` returns the lower-triangular part
of the Lagrangian-weighted sum `Σᵢ λᵢ · ∂²Fᵢ/∂x²` as a sparse `|x| × |x|`
matrix with an explicit entry at every lower-triangular coordinate. -/
theorem evaluate_hessian_equality_constraints_spec {nx ny nf : ℕ}
    (jfy : Matrix (Fin nf) (Fin ny) ℚ)
    (jgx : Matrix (Fin ny) (Fin nx) ℚ) (jgy : Matrix (Fin ny) (Fin ny) ℚ)
    (hfxx : Fin nf → Matrix (Fin nx) (Fin nx) ℚ)
    (hfxy : Fin nf → Matrix (Fin nx) (Fin ny) ℚ)
    (hfyy : Fin nf → Matrix (Fin ny) (Fin ny) ℚ)
    (hgxx : Fin ny → Matrix (Fin nx) (Fin nx) ℚ)
    (hgxy : Fin ny → Matrix (Fin nx) (Fin ny) ℚ)
    (hgyy : Fin ny → Matrix (Fin ny) (Fin ny) ℚ)
    (multipliers : Fin nf → ℚ) (hreg : IsUnit jgy.det) :
    (evaluateHessianEqualityConstraints jfy jgx jgy hfxx hfxy hfyy hgxx hgxy
      hgyy multipliers).nrow = nx ∧
    (evaluateHessianEqualityConstraints jfy jgx jgy hfxx hfxy hfyy hgxx hgxy
      hgyy multipliers).ncol = nx ∧
    jgy * specDydx jgx jgy = -jgx ∧
    (∀ (a b : Fin nx), b.val ≤ a.val →
      (⟨a.val, b.val, (∑ i : Fin nf, multipliers i •
          specResidualHessian jfy jgx jgy hfxx hfxy hfyy hgxx hgxy hgyy i) a b⟩ :
        CooEntry) ∈ (evaluateHessianEqualityConstraints jfy jgx jgy hfxx hfxy
          hfyy hgxx hgxy hgyy multipliers).entries) ∧
    (∀ e ∈ (evaluateHessianEqualityConstraints jfy jgx jgy hfxx hfxy hfyy hgxx
        hgxy hgyy multipliers).entries,
      e.col ≤ e.row ∧ ∃ (a b : Fin nx),
        e = ⟨a.val, b.val, (∑ i : Fin nf, multipliers i •
          specResidualHessian jfy jgx jgy hfxx hfxy hfyy hgxx hgxy hgyy i) a b⟩) := by
  have hkey : evaluateHessianEqualityConstraints jfy jgx jgy hfxx hfxy hfyy
      hgxx hgxy hgyy multipliers =
      trilCoo (denseToFullSparse (∑ i : Fin nf, multipliers i •
        specResidualHessian jfy jgx jgy hfxx hfxy hfyy hgxx hgxy hgyy i)) := by
    rw [evaluateHessianEqualityConstraints,
      hessiansOfResiduals_eq_specResidualHessian]
  have hJ : jgy * specDydx jgx jgy = -jgx := by
    rw [specDydx, Matrix.mul_neg, ← Matrix.mul_assoc,
      Matrix.mul_nonsing_inv jgy hreg, Matrix.one_mul]
  refine ⟨by rw [hkey]; rfl, by rw [hkey]; rfl, hJ, ?_, ?_⟩
  · intro a b hab
    rw [hkey]
    exact mem_trilCoo_denseToFullSparse _ a b hab
  · intro e he
    rw [hkey] at he
    exact of_mem_trilCoo_denseToFullSparse _ e he

/-- Witness for C3 at concrete 1-dimensional blocks with nonsingular
`∂g/∂y = [2]` and multiplier `1`: the returned matrix has shape `1 × 1`
and the diagonal coordinate `(0, 0)` carries the weighted spec Hessian. -/
theorem evaluate_hessian_equality_constraints_spec_witness :
    (evaluateHessianEqualityConstraints !![(3 : ℚ)] !![(4 : ℚ)] !![(2 : ℚ)]
      (fun _ => !![(5 : ℚ)]) (fun _ => !![(6 : ℚ)]) (fun _ => !![(7 : ℚ)])
      (fun _ => !![(8 : ℚ)]) (fun _ => !![(9 : ℚ)]) (fun _ => !![(10 : ℚ)])
      (fun _ => (1 : ℚ))).nrow = 1 ∧
    (⟨0, 0, (∑ i : Fin 1, (1 : ℚ) •
        specResidualHessian !![(3 : ℚ)] !![(4 : ℚ)] !![(2 : ℚ)]
          (fun _ => !![(5 : ℚ)]) (fun _ => !![(6 : ℚ)]) (fun _ => !![(7 : ℚ)])
          (fun _ => !![(8 : ℚ)]) (fun _ => !![(9 : ℚ)])
          (fun _ => !![(10 : ℚ)]) i) 0 0⟩ : CooEntry) ∈
      (evaluateHessianEqualityConstraints !![(3 : ℚ)] !![(4 : ℚ)] !![(2 : ℚ)]
        (fun _ => !![(5 : ℚ)]) (fun _ => !![(6 : ℚ)]) (fun _ => !![(7 : ℚ)])
        (fun _ => !![(8 : ℚ)]) (fun _ => !![(9 : ℚ)]) (fun _ => !![(10 : ℚ)])
        (fun _ => (1 : ℚ))).entries := by
  have hreg : IsUnit (!![(2 : ℚ)]).det := by
    rw [Matrix.det_fin_one]
    exact isUnit_iff_ne_zero.mpr (by norm_num)
  obtain ⟨h1, -, -, h4, -⟩ :=
    evaluate_hessian_equality_constraints_spec !![(3 : ℚ)] !![(4 : ℚ)]
      !![(2 : ℚ)] (fun _ => !![(5 : ℚ)]) (fun _ => !![(6 : ℚ)])
      (fun _ => !![(7 : ℚ)]) (fun _ => !![(8 : ℚ)]) (fun _ => !![(9 : ℚ)])
      (fun _ => !![(10 : ℚ)]) (fun _ => (1 : ℚ)) hreg
  exact ⟨h1, h4 0 0 (Nat.le_refl 0)⟩

/-- Modelled from the spec: a constraint expression as seen by the
SubModelEvaluator collaborator (spec 2, 4.3).  `occurs` is the set of
variable identifiers structurally present in the expression; `hess` gives
its second partial derivatives at the current point; a second derivative
with respect to a variable that does not appear in the expression is
definitionally zero (spec 4.3: "whose true second derivative is then
definitionally zero"). -/
structure ConExpr where
  occurs : Finset ℕ
  hess : ℕ → ℕ → ℚ
  hess_zero : ∀ v w : ℕ, v ∉ occurs ∨ w ∉ occurs → hess v w = 0

/-- Modelled from the spec: `PyomoNLP.extract_submatrix_hessian_lag`
(repository code outside src/; spec 6 collaborator contract
`hessian_of_lagrangian(equations, multipliers, vars1, vars2) -> matrix`).
It returns the multiplier-weighted sum of the constraint Hessians of the
block restricted to the two requested variable lists, and is only defined
when every requested variable appears structurally in some equation of the
block (spec 9: "only variables actually appearing in supplied equations
yield derivatives"); otherwise the query fails. -/
def extractSubmatrixHessianLag (cons : List ConExpr) (duals : List ℚ)
    (wrt1 wrt2 : List ℕ) :
    Option (Matrix (Fin wrt1.length) (Fin wrt2.length) ℚ) :=
  if ∀ v ∈ wrt1 ++ wrt2, ∃ c ∈ cons, v ∈ c.occurs then
    Option.some (Matrix.of fun i j =>
      ((duals.zip cons).map fun p =>
        p.1 * p.2.hess (wrt1.get i) (wrt2.get j)).sum)
  else
    Option.none

/-- The auxiliary presence constraint added by `get_hessian_of_constraint`
(lines 62-103, branch in which both variable lists are supplied):
`block._dummy_con = Constraint(expr=sum(variables) == block._dummy_var)`.
It is linear, so all of its second derivatives are zero, and it contains
every variable of `wrt1 + wrt2` plus a fresh auxiliary variable (modelled
by an identifier strictly larger than every requested one). -/
def presenceCon (vars : List ℕ) : ConExpr where
  occurs := insert (vars.foldr max 0 + 1) vars.toFinset
  hess := fun _ _ => 0
  hess_zero := fun _ _ _ => rfl

/-- Embedding of the body of `get_hessian_of_constraint`: the sub-model
block holds the requested constraint and the presence constraint, the
duals are `[0.0, 0.0]` with `1.0` written at the index of the requested
constraint, and the Hessian-of-Lagrangian submatrix for `(wrt1, wrt2)` is
extracted. -/
def getHessianOfConstraint (c : ConExpr) (wrt1 wrt2 : List ℕ) :
    Option (Matrix (Fin wrt1.length) (Fin wrt2.length) ℚ) :=
  extractSubmatrixHessianLag [c, presenceCon (wrt1 ++ wrt2)] [1, 0] wrt1 wrt2

/-- Claim C5: for every single equation `c` and variable lists `wrt1`,
`wrt2`, the constraint-Hessian extraction builds a sub-model in which
every requested variable is structurally present (so the evaluator query
always succeeds), assigns a unit Lagrange multiplier to `c` and zero to
the auxiliary presence equation, and returns the full second-derivative
matrix `∂²c/∂v1∂v2` with an entry for every pair — in particular, entries
for variables not appearing in `c`'s expression are zero. -/
theorem get_hessian_of_constraint_spec (c : ConExpr) (wrt1 wrt2 : List ℕ) :
    ∃ M, getHessianOfConstraint c wrt1 wrt2 = Option.some M ∧
      (∀ (i : Fin wrt1.length) (j : Fin wrt2.length),
        M i j = c.hess (wrt1.get i) (wrt2.get j)) ∧
      (∀ (i : Fin wrt1.length) (j : Fin wrt2.length),
        wrt1.get i ∉ c.occurs ∨ wrt2.get j ∉ c.occurs → M i j = 0) := by
  have hpresent : ∀ v ∈ wrt1 ++ wrt2,
      ∃ d ∈ [c, presenceCon (wrt1 ++ wrt2)], v ∈ d.occurs := by
    intro v hv
    refine ⟨presenceCon (wrt1 ++ wrt2),
      List.mem_cons_of_mem _ (List.mem_cons_self _ _), ?_⟩
    exact Finset.mem_insert_of_mem (List.mem_toFinset.mpr hv)
  refine ⟨Matrix.of fun i j => c.hess (wrt1.get i) (wrt2.get j), ?_, ?_, ?_⟩
  · rw [getHessianOfConstraint, extractSubmatrixHessianLag, if_pos hpresent]
    simp
  · intro i j
    rw [Matrix.of_apply]
  · intro i j h
    rw [Matrix.of_apply]
    exact c.hess_zero _ _ h

/-- Concrete constraint expression for the C5 witness: the variable `0`
occurs, the variable `1` does not, and the only nonzero second derivative
is `2` at `(0, 0)`. -/
def witnessCon : ConExpr where
  occurs := {0}
  hess := fun v w => if v = 0 ∧ w = 0 then 2 else 0
  hess_zero := by
    intro v w h
    show (if v = 0 ∧ w = 0 then (2 : ℚ) else 0) = 0
    rw [if_neg]
    rintro ⟨rfl, rfl⟩
    rcases h with h | h <;> exact h (Finset.mem_singleton_self 0)

/-- Witness for C5 at the concrete constraint `witnessCon` and variable
lists `[0, 1]`, `[0, 1]`: the query succeeds, returns the full Hessian,
and the entries involving the absent variable `1` are zero. -/
theorem get_hessian_of_constraint_spec_witness :
    ∃ M, getHessianOfConstraint witnessCon [0, 1] [0, 1] = Option.some M ∧
      (∀ (i : Fin 2) (j : Fin 2),
        M i j = witnessCon.hess ([0, 1].get i) ([0, 1].get j)) ∧
      (∀ (i : Fin 2) (j : Fin 2),
        [0, 1].get i ∉ witnessCon.occurs ∨ [0, 1].get j ∉ witnessCon.occurs →
          M i j = 0) :=
  get_hessian_of_constraint_spec witnessCon [0, 1] [0, 1]

/-- A residual or external equation body, evaluated at the current input
and external variable values. -/
def ConBody : Type := List ℚ → List ℚ → ℚ

/-- The construction-time failure of the spec's error taxonomy (spec 7):
the partition invariant `|ExternalVars| == |ExternalEqs|` is violated.  In
the code this is the `assert len(external_vars) == len(external_cons)` in
`__init__` (line 145), a hard construction-time error. -/
inductive ConstructionError where
  | configurationError
  deriving DecidableEq

/-- Failures of the evaluation queries in the spec's error taxonomy
(spec 7). -/
inductive EvalError where
  | uninitializedState
  | convergenceFailure
  deriving DecidableEq

/-- The observable state of an `ExternalPyomoModel` object: the current
values of the input and external variables, the partition of equation
bodies, and the variable values snapshotted by the `PyomoNLP` evaluator
held in `self._nlp` (built from `self._block` in `__init__` and rebuilt at
the end of every non-raising `set_input_values`). -/
structure ModelState where
  inputVars : List ℚ
  externalVars : List ℚ
  residualCons : List ConBody
  externalCons : List ConBody
  nlpInputVals : List ℚ
  nlpExternalVals : List ℚ

/-- Embedding of `ExternalPyomoModel.__init__` (lines 125-152): the block
and the `PyomoNLP` evaluator are built from the current variable values,
and the only partition check is `assert len(external_vars) ==
len(external_cons)`; a violation aborts construction. -/
def mkExternalPyomoModel (inputVals externalVals : List ℚ)
    (residualCons externalCons : List ConBody) :
    Except ConstructionError ModelState :=
  if externalVals.length = externalCons.length then
    Except.ok
      { inputVars := inputVals
        externalVars := externalVals
        residualCons := residualCons
        externalCons := externalCons
        nlpInputVals := inputVals
        nlpExternalVals := externalVals }
  else
    Except.error ConstructionError.configurationError

/-- Claim C6: construction fails with a configuration error exactly when
the number of external variables differs from the number of external
equations, and succeeds otherwise. -/
theorem construction_requires_square_system (inputVals externalVals : List ℚ)
    (residualCons externalCons : List ConBody) :
    (externalVals.length ≠ externalCons.length →
      mkExternalPyomoModel inputVals externalVals residualCons externalCons =
        Except.error ConstructionError.configurationError) ∧
    (externalVals.length = externalCons.length →
      ∃ m, mkExternalPyomoModel inputVals externalVals residualCons
          externalCons = Except.ok m) ∧
    (∀ m, mkExternalPyomoModel inputVals externalVals residualCons
        externalCons = Except.ok m →
      externalVals.length = externalCons.length) := by
  refine ⟨?_, ?_, ?_⟩
  · intro hne
    rw [mkExternalPyomoModel, if_neg hne]
  · intro heq
    exact ⟨_, by rw [mkExternalPyomoModel, if_pos heq]⟩
  · intro m hm
    by_contra hne
    rw [mkExternalPyomoModel, if_neg hne] at hm
    exact Except.noConfusion hm

/-- Witness for C6: with one external variable and two external equations
construction fails with the configuration error, and with one of each it
succeeds. -/
theorem construction_requires_square_system_witness :
    mkExternalPyomoModel [1] [2] [] [fun _ _ => 0, fun _ _ => 0] =
      Except.error ConstructionError.configurationError ∧
    ∃ m, mkExternalPyomoModel [1] [2] [] [fun _ _ => 0] = Except.ok m := by
  constructor
  · exact (construction_requires_square_system [1] [2] []
      [fun _ _ => 0, fun _ _ => 0]).1 (by decide)
  · exact (construction_requires_square_system [1] [2] []
      [fun _ _ => 0]).2.1 rfl

/-- Embedding of `evaluate_equality_constraints` (lines 192-193): a single
`self._nlp.extract_subvector_constraints(self.residual_cons)` call, which
returns the residual bodies evaluated at the values snapshotted by
`self._nlp`.  The method performs no state check: `self._nlp` already
exists from `__init__` (line 143), so the query cannot fail with an
uninitialized-state error. -/
def evaluateEqualityConstraints (m : ModelState) : Except EvalError (List ℚ) :=
  Except.ok (m.residualCons.map fun c => c m.nlpInputVals m.nlpExternalVals)

/-- Amended claim C8: on a freshly constructed model on which
`set_input_values` has never been called, `evaluate_equality_constraints`
does not fail; it returns the residual values at the construction-time
variable values, because the evaluator is built in `__init__`. -/
theorem evaluate_before_set_input_values (inputVals externalVals : List ℚ)
    (residualCons externalCons : List ConBody) (m : ModelState)
    (hm : mkExternalPyomoModel inputVals externalVals residualCons
      externalCons = Except.ok m) :
    evaluateEqualityConstraints m =
      Except.ok (residualCons.map fun c => c inputVals externalVals) := by
  rw [mkExternalPyomoModel] at hm
  by_cases h : externalVals.length = externalCons.length
  · rw [if_pos h] at hm
    obtain rfl := Except.ok.inj hm
    rfl
  · rw [if_neg h] at hm
    exact Except.noConfusion hm

/-- The freshly constructed model used by the C8 counterexample: one
input variable with value `2`, one external variable with value `3`, the
residual equation `x + y == 0` and the external equation `y * y - x == 0`. -/
def c8Model : ModelState where
  inputVars := [2]
  externalVars := [3]
  residualCons := [fun xs ys => xs.getD 0 0 + ys.getD 0 0]
  externalCons := [fun xs ys => ys.getD 0 0 * ys.getD 0 0 - xs.getD 0 0]
  nlpInputVals := [2]
  nlpExternalVals := [3]

/-- Counterexample to claim C8 as stated: on the freshly constructed
`c8Model`, with `set_input_values` never called,
`evaluate_equality_constraints` returns the numeric residual vector `[5]`
instead of failing with an uninitialized-state error. -/
theorem evaluate_before_set_input_values_cex :
    mkExternalPyomoModel [2] [3]
        [fun xs ys => xs.getD 0 0 + ys.getD 0 0]
        [fun xs ys => ys.getD 0 0 * ys.getD 0 0 - xs.getD 0 0] =
      Except.ok c8Model ∧
    evaluateEqualityConstraints c8Model = Except.ok [5] ∧
    evaluateEqualityConstraints c8Model ≠
      Except.error EvalError.uninitializedState := by
  refine ⟨rfl, ?_, ?_⟩
  · show Except.ok ([fun (xs ys : List ℚ) => xs.getD 0 0 + ys.getD 0 0].map
      fun c => c [2] [3]) = Except.ok [5]
    norm_num
  · intro h
    exact Except.noConfusion h

/-- Witness for the amended claim C8 at the concrete fresh model. -/
theorem evaluate_before_set_input_values_witness :
    evaluateEqualityConstraints c8Model =
      Except.ok ([fun (xs ys : List ℚ) => xs.getD 0 0 + ys.getD 0 0].map
        fun c => c [2] [3]) :=
  evaluate_before_set_input_values [2] [3]
    [fun xs ys => xs.getD 0 0 + ys.getD 0 0]
    [fun xs ys => ys.getD 0 0 * ys.getD 0 0 - xs.getD 0 0] c8Model rfl

/-- Embedding of the assignment loop at the start of `set_input_values`
(lines 172-173): `for var, val in zip(input_vars, input_values):
var.set_value(val)`.  Python's `zip` stops at the shorter sequence, so
only the first `min` positions are overwritten; remaining variables keep
their previous values and extra values are dropped. -/
def assignZip : List ℚ → List ℚ → List ℚ
  | [], _ => []
  | vs, [] => vs
  | _ :: vs, w :: ws => w :: assignZip vs ws

lemma assignZip_nil_left (ws : List ℚ) : assignZip [] ws = [] := by
  cases ws <;> rfl

lemma assignZip_length : ∀ (vs ws : List ℚ),
    (assignZip vs ws).length = vs.length
  | [], ws => by rw [assignZip_nil_left]
  | _ :: _, [] => rfl
  | _ :: vs, _ :: ws => by
    show (assignZip vs ws).length + 1 = vs.length + 1
    rw [assignZip_length vs ws]

lemma assignZip_getD_lt : ∀ (vs ws : List ℚ) (i : ℕ),
    i < ws.length → i < vs.length →
    (assignZip vs ws).getD i 0 = ws.getD i 0
  | [], _, i, _, hv => absurd hv (Nat.not_lt_zero i)
  | _ :: _, [], i, hw, _ => absurd hw (Nat.not_lt_zero i)
  | _ :: _, _ :: _, 0, _, _ => rfl
  | _ :: vs, _ :: ws, i + 1, hw, hv =>
    assignZip_getD_lt vs ws i (Nat.lt_of_succ_lt_succ hw)
      (Nat.lt_of_succ_lt_succ hv)

lemma assignZip_getD_ge : ∀ (vs ws : List ℚ) (i : ℕ), ws.length ≤ i →
    (assignZip vs ws).getD i 0 = vs.getD i 0
  | [], ws, i, _ => by rw [assignZip_nil_left]
  | _ :: _, [], _, _ => rfl
  | _ :: _, _ :: _, 0, hw => absurd hw (Nat.not_succ_le_zero _)
  | _ :: vs, _ :: ws, i + 1, hw =>
    assignZip_getD_ge vs ws i (Nat.le_of_succ_le_succ hw)

/-- Embedding of `set_input_values` (lines 166-186).  The method first
writes the new values onto the input variables through `zip`, then runs
the nested solver on the external sub-system with the inputs fixed, and
only afterwards rebuilds `self._nlp` from the block.  The solver is the
NestedEquationSolver collaborator: it receives the current input and
external values and either produces resolved external values or raises
(modelled by `Option.none`).  The result pairs the final object state
with the surfaced error, if any: when the solver raises, the exception
propagates after the input variables have already been overwritten and
before `self._nlp` is rebuilt. -/
def setInputValues (solver : List ℚ → List ℚ → Option (List ℚ))
    (m : ModelState) (inputValues : List ℚ) : ModelState × Option EvalError :=
  let newInputs := assignZip m.inputVars inputValues
  match solver newInputs m.externalVars with
  | Option.none =>
      ({ m with inputVars := newInputs },
        Option.some EvalError.convergenceFailure)
  | Option.some newY =>
      ({ m with
          inputVars := newInputs
          externalVars := newY
          nlpInputVals := newInputs
          nlpExternalVals := newY },
        Option.none)

/-- Amended claim C9: when the nested solve raises on
`set_input_values(x)`, the failure is surfaced, but the replacement of the
state is not atomic: the input variables already hold the new values
(they are assigned before the solve), while the evaluator snapshot kept in
`self._nlp` still belongs to the previous evaluation point. -/
theorem set_input_values_failure_keeps_new_inputs
    (solver : List ℚ → List ℚ → Option (List ℚ)) (m : ModelState)
    (inputValues : List ℚ)
    (hfail : solver (assignZip m.inputVars inputValues) m.externalVars =
      Option.none) :
    setInputValues solver m inputValues =
      ({ m with inputVars := assignZip m.inputVars inputValues },
        Option.some EvalError.convergenceFailure) := by
  rw [setInputValues]
  show (match solver (assignZip m.inputVars inputValues) m.externalVars with
    | Option.none => ({ m with inputVars := assignZip m.inputVars inputValues },
        Option.some EvalError.convergenceFailure)
    | Option.some newY => ({ m with
        inputVars := assignZip m.inputVars inputValues
        externalVars := newY
        nlpInputVals := assignZip m.inputVars inputValues
        nlpExternalVals := newY }, Option.none)) =
    ({ m with inputVars := assignZip m.inputVars inputValues },
      Option.some EvalError.convergenceFailure)
  rw [hfail]

/-- The model used by the C9 counterexample and witness: one input with
value `2`, one external with value `3`. -/
def c9Model : ModelState where
  inputVars := [2]
  externalVars := [3]
  residualCons := [fun xs ys => xs.getD 0 0 + ys.getD 0 0]
  externalCons := [fun xs ys => ys.getD 0 0 - xs.getD 0 0]
  nlpInputVals := [2]
  nlpExternalVals := [3]

/-- Counterexample to claim C9 as stated: calling `set_input_values([5])`
on `c9Model` with a solver that fails surfaces the convergence failure,
yet the model's input variable now holds the new value `5` instead of the
previous Ready value `2` — the old state was partially overwritten. -/
theorem set_input_values_failure_cex :
    (setInputValues (fun _ _ => Option.none) c9Model [5]).2 =
      Option.some EvalError.convergenceFailure ∧
    (setInputValues (fun _ _ => Option.none) c9Model [5]).1.inputVars = [5] ∧
    c9Model.inputVars = [2] ∧
    (setInputValues (fun _ _ => Option.none) c9Model [5]).1.inputVars ≠
      c9Model.inputVars := by
  refine ⟨rfl, rfl, rfl, ?_⟩
  intro h
  have : (5 : ℚ) = 2 := List.head_eq_of_cons_eq h
  norm_num at this

/-- Witness for the amended claim C9 at the concrete failing solver. -/
theorem set_input_values_failure_keeps_new_inputs_witness :
    setInputValues (fun _ _ => Option.none) c9Model [5] =
      ({ c9Model with inputVars := assignZip c9Model.inputVars [5] },
        Option.some EvalError.convergenceFailure) :=
  set_input_values_failure_keeps_new_inputs (fun _ _ => Option.none)
    c9Model [5] rfl

/-- Claim C10: a `set_input_values(x)` call with `len(x)` different from
`n_inputs()` raises no length error: only the first `min(len(x),
n_inputs())` input variables receive new values, the remaining input
variables keep their previous values, extra values are dropped, and the
nested solve proceeds on the resulting mixed input vector. -/
theorem set_input_values_partial_assignment
    (solver : List ℚ → List ℚ → Option (List ℚ)) (m : ModelState)
    (inputValues newY : List ℚ)
    (hok : solver (assignZip m.inputVars inputValues) m.externalVars =
      Option.some newY) :
    (setInputValues solver m inputValues).2 = Option.none ∧
    (setInputValues solver m inputValues).1.inputVars =
      assignZip m.inputVars inputValues ∧
    (setInputValues solver m inputValues).1.externalVars = newY ∧
    (assignZip m.inputVars inputValues).length = m.inputVars.length ∧
    (∀ i : ℕ, i < inputValues.length → i < m.inputVars.length →
      (assignZip m.inputVars inputValues).getD i 0 = inputValues.getD i 0) ∧
    (∀ i : ℕ, inputValues.length ≤ i →
      (assignZip m.inputVars inputValues).getD i 0 = m.inputVars.getD i 0) := by
  have hset : setInputValues solver m inputValues =
      ({ m with
          inputVars := assignZip m.inputVars inputValues
          externalVars := newY
          nlpInputVals := assignZip m.inputVars inputValues
          nlpExternalVals := newY }, Option.none) := by
    rw [setInputValues]
    show (match solver (assignZip m.inputVars inputValues) m.externalVars with
      | Option.none => ({ m with inputVars := assignZip m.inputVars inputValues },
          Option.some EvalError.convergenceFailure)
      | Option.some newY => ({ m with
          inputVars := assignZip m.inputVars inputValues
          externalVars := newY
          nlpInputVals := assignZip m.inputVars inputValues
          nlpExternalVals := newY }, Option.none)) = _
    rw [hok]
  rw [hset]
  exact ⟨rfl, rfl, rfl, assignZip_length m.inputVars inputValues,
    fun i hw hv => assignZip_getD_lt m.inputVars inputValues i hw hv,
    fun i hw => assignZip_getD_ge m.inputVars inputValues i hw⟩

/-- The model used by the C10 witness: three inputs with values
`[2, 3, 4]`. -/
def c10Model : ModelState where
  inputVars := [2, 3, 4]
  externalVars := [0]
  residualCons := []
  externalCons := [fun _ _ => 0]
  nlpInputVals := [2, 3, 4]
  nlpExternalVals := [0]

/-- Witness for C10: calling `set_input_values([7])` on a model with three
inputs succeeds, assigns `7` to the first input, and keeps the previous
values of the other two. -/
theorem set_input_values_partial_assignment_witness :
    (setInputValues (fun _ _ => Option.some [1]) c10Model [7]).2 =
      Option.none ∧
    (setInputValues (fun _ _ => Option.some [1]) c10Model [7]).1.inputVars =
      assignZip c10Model.inputVars [7] ∧
    (assignZip c10Model.inputVars [7]).getD 0 0 = (7 : ℚ) ∧
    (assignZip c10Model.inputVars [7]).getD 1 0 = (3 : ℚ) ∧
    (assignZip c10Model.inputVars [7]).getD 2 0 = (4 : ℚ) := by
  obtain ⟨h1, h2, -, -, h5, h6⟩ :=
    set_input_values_partial_assignment (fun _ _ => Option.some [1])
      c10Model [7] [1] rfl
  refine ⟨h1, h2, ?_, ?_, ?_⟩
  · have := h5 0 (by decide) (by decide)
    simpa using this
  · have := h6 1 (by decide)
    simpa using this
  · have := h6 2 (by decide)
    simpa using this

/-- Instrumented model of a `sps.linalg.splu` call: returns the
factorization (modelled by the factored matrix itself, the data every
subsequent solve uses) together with a count of `1` for the one
factorization this call performs. -/
def spluFactor {n : ℕ} (A : Matrix (Fin n) (Fin n) ℚ) :
    Matrix (Fin n) (Fin n) ℚ × ℕ :=
  (A, 1)

/-- Instrumented embedding of `evaluate_jacobian_equality_constraints`:
the method calls `sps.linalg.splu(jgy.tocsc())` itself (line 214), so each
call performs exactly one factorization. -/
def evaluateJacobianEqualityConstraintsCounted {nx ny nf : ℕ}
    (jfx : Matrix (Fin nf) (Fin nx) ℚ) (jfy : Matrix (Fin nf) (Fin ny) ℚ)
    (jgx : Matrix (Fin ny) (Fin nx) ℚ) (jgy : Matrix (Fin ny) (Fin ny) ℚ) :
    CooMatrix × ℕ :=
  let fact := spluFactor jgy
  let dydx := (-1 : ℚ) • spluSolve fact.1 jgx
  (denseToFullSparse (jfx + jfy * dydx), fact.2)

/-- Instrumented embedding of `evaluate_jacobian_external_variables`: the
method calls `sps.linalg.splu(jgy_csc)` itself (line 230). -/
def evaluateJacobianExternalVariablesCounted {nx ny : ℕ}
    (jgx : Matrix (Fin ny) (Fin nx) ℚ) (jgy : Matrix (Fin ny) (Fin ny) ℚ) :
    Matrix (Fin ny) (Fin nx) ℚ × ℕ :=
  let fact := spluFactor jgy
  ((-1 : ℚ) • spluSolve fact.1 jgx, fact.2)

/-- Instrumented embedding of `evaluate_hessian_external_variables`: the
method calls `sps.linalg.splu(jgy_csc)` once (line 241) and reuses the
resulting `jgy_fact` for `dydx` and for all column backsolves. -/
def evaluateHessianExternalVariablesCounted {nx ny : ℕ}
    (jgx : Matrix (Fin ny) (Fin nx) ℚ) (jgy : Matrix (Fin ny) (Fin ny) ℚ)
    (hgxx : Fin ny → Matrix (Fin nx) (Fin nx) ℚ)
    (hgxy : Fin ny → Matrix (Fin nx) (Fin ny) ℚ)
    (hgyy : Fin ny → Matrix (Fin ny) (Fin ny) ℚ) :
    (Fin ny → Matrix (Fin nx) (Fin nx) ℚ) × ℕ :=
  let fact := spluFactor jgy
  let dydx := (-1 : ℚ) • spluSolve fact.1 jgx
  let sums : Fin ny → Matrix (Fin nx) (Fin nx) ℚ := fun k =>
    hgxx k + (hgxy k * dydx + (hgxy k * dydx)ᵀ) + dydxᵀ * hgyy k * dydx
  let solvedVectors : Fin nx → Fin nx → Fin ny → ℚ :=
    fun i j => spluSolveVec fact.1 (fun k => sums k i j)
  (fun k => Matrix.of fun a b => -(solvedVectors a b k), fact.2)

/-- Instrumented embedding of `evaluate_hessians_of_residuals`: the method
performs no factorization itself but calls
`evaluate_jacobian_external_variables` (line 296) and
`evaluate_hessian_external_variables` (line 305), accumulating their
factorizations. -/
def evaluateHessiansOfResidualsCounted {nx ny nf : ℕ}
    (jfy : Matrix (Fin nf) (Fin ny) ℚ)
    (jgx : Matrix (Fin ny) (Fin nx) ℚ) (jgy : Matrix (Fin ny) (Fin ny) ℚ)
    (hfxx : Fin nf → Matrix (Fin nx) (Fin nx) ℚ)
    (hfxy : Fin nf → Matrix (Fin nx) (Fin ny) ℚ)
    (hfyy : Fin nf → Matrix (Fin ny) (Fin ny) ℚ)
    (hgxx : Fin ny → Matrix (Fin nx) (Fin nx) ℚ)
    (hgxy : Fin ny → Matrix (Fin nx) (Fin ny) ℚ)
    (hgyy : Fin ny → Matrix (Fin ny) (Fin ny) ℚ) :
    (Fin nf → Matrix (Fin nx) (Fin nx) ℚ) × ℕ :=
  let dydxC := evaluateJacobianExternalVariablesCounted jgx jgy
  let d2ydx2C := evaluateHessianExternalVariablesCounted jgx jgy hgxx hgxy hgyy
  let dydx := dydxC.1
  let d2ydx2 := d2ydx2C.1
  let term4 : Fin nf → Matrix (Fin nx) (Fin nx) ℚ := fun i =>
    Matrix.of fun a b => jfy.mulVec (fun k => d2ydx2 k a b) i
  (fun i => hfxx i + (hfxy i * dydx + (hfxy i * dydx)ᵀ) +
      dydxᵀ * hfyy i * dydx + term4 i,
    dydxC.2 + d2ydx2C.2)

/-- Instrumented embedding of `evaluate_hessian_equality_constraints`: it
performs no factorization itself but inherits the ones performed by
`evaluate_hessians_of_residuals` (line 340). -/
def evaluateHessianEqualityConstraintsCounted {nx ny nf : ℕ}
    (jfy : Matrix (Fin nf) (Fin ny) ℚ)
    (jgx : Matrix (Fin ny) (Fin nx) ℚ) (jgy : Matrix (Fin ny) (Fin ny) ℚ)
    (hfxx : Fin nf → Matrix (Fin nx) (Fin nx) ℚ)
    (hfxy : Fin nf → Matrix (Fin nx) (Fin ny) ℚ)
    (hfyy : Fin nf → Matrix (Fin ny) (Fin ny) ℚ)
    (hgxx : Fin ny → Matrix (Fin nx) (Fin nx) ℚ)
    (hgxy : Fin ny → Matrix (Fin nx) (Fin ny) ℚ)
    (hgyy : Fin ny → Matrix (Fin ny) (Fin ny) ℚ)
    (multipliers : Fin nf → ℚ) : CooMatrix × ℕ :=
  let d2fdx2C := evaluateHessiansOfResidualsCounted jfy jgx jgy hfxx hfxy hfyy
    hgxx hgxy hgyy
  (trilCoo (denseToFullSparse
      (∑ i : Fin nf, multipliers i • d2fdx2C.1 i)),
    d2fdx2C.2)

/-- Amended claim C7: no factorization of `∂g/∂y` is cached on the model
between queries.  Every Jacobian query factorizes once per call,
`evaluate_hessian_external_variables` factorizes once per call and reuses
that factorization only for its own column solves, and the Hessian
queries perform two factorizations per call through their two sub-calls;
the computed values agree with the un-instrumented embeddings. -/
theorem factorization_counts_per_query {nx ny nf : ℕ}
    (jfx : Matrix (Fin nf) (Fin nx) ℚ) (jfy : Matrix (Fin nf) (Fin ny) ℚ)
    (jgx : Matrix (Fin ny) (Fin nx) ℚ) (jgy : Matrix (Fin ny) (Fin ny) ℚ)
    (hfxx : Fin nf → Matrix (Fin nx) (Fin nx) ℚ)
    (hfxy : Fin nf → Matrix (Fin nx) (Fin ny) ℚ)
    (hfyy : Fin nf → Matrix (Fin ny) (Fin ny) ℚ)
    (hgxx : Fin ny → Matrix (Fin nx) (Fin nx) ℚ)
    (hgxy : Fin ny → Matrix (Fin nx) (Fin ny) ℚ)
    (hgyy : Fin ny → Matrix (Fin ny) (Fin ny) ℚ)
    (multipliers : Fin nf → ℚ) :
    (evaluateJacobianEqualityConstraintsCounted jfx jfy jgx jgy).2 = 1 ∧
    (evaluateJacobianExternalVariablesCounted jgx jgy).2 = 1 ∧
    (evaluateHessianExternalVariablesCounted jgx jgy hgxx hgxy hgyy).2 = 1 ∧
    (evaluateHessiansOfResidualsCounted jfy jgx jgy hfxx hfxy hfyy hgxx hgxy
      hgyy).2 = 2 ∧
    (evaluateHessianEqualityConstraintsCounted jfy jgx jgy hfxx hfxy hfyy hgxx
      hgxy hgyy multipliers).2 = 2 ∧
    (evaluateJacobianEqualityConstraintsCounted jfx jfy jgx jgy).1 =
      evaluateJacobianEqualityConstraints jfx jfy jgx jgy ∧
    (evaluateJacobianExternalVariablesCounted jgx jgy).1 =
      evaluateJacobianExternalVariables jgx jgy ∧
    (evaluateHessianExternalVariablesCounted jgx jgy hgxx hgxy hgyy).1 =
      evaluateHessianExternalVariables jgx jgy hgxx hgxy hgyy ∧
    (evaluateHessiansOfResidualsCounted jfy jgx jgy hfxx hfxy hfyy hgxx hgxy
      hgyy).1 =
      evaluateHessiansOfResiduals jfy jgx jgy hfxx hfxy hfyy hgxx hgxy hgyy ∧
    (evaluateHessianEqualityConstraintsCounted jfy jgx jgy hfxx hfxy hfyy hgxx
      hgxy hgyy multipliers).1 =
      evaluateHessianEqualityConstraints jfy jgx jgy hfxx hfxy hfyy hgxx hgxy
        hgyy multipliers :=
  ⟨rfl, rfl, rfl, rfl, rfl, rfl, rfl, rfl, rfl, rfl⟩

/-- Counterexample to claim C7 as stated: at a concrete Ready state (all
blocks one-dimensional, `∂g/∂y = [2]` nonsingular), one Jacobian query
followed by one Hessian query on the same unchanged evaluation state
performs `1 + 2 = 3` factorizations of `∂g/∂y`, not a single cached one. -/
theorem factorization_not_cached_cex :
    (evaluateJacobianEqualityConstraintsCounted !![(1 : ℚ)] !![(3 : ℚ)]
        !![(4 : ℚ)] !![(2 : ℚ)]).2 +
      (evaluateHessianEqualityConstraintsCounted !![(3 : ℚ)] !![(4 : ℚ)]
        !![(2 : ℚ)] (fun _ => !![(5 : ℚ)]) (fun _ => !![(6 : ℚ)])
        (fun _ => !![(7 : ℚ)]) (fun _ => !![(8 : ℚ)]) (fun _ => !![(9 : ℚ)])
        (fun _ => !![(10 : ℚ)]) (fun _ => (1 : ℚ))).2 = 3 ∧
    (3 : ℕ) ≠ 1 := by
  exact ⟨rfl, by decide⟩

end ExternalPyomoModelSpec
